import Mathlib

/-!
Verification of the invoice-analyzer core (`Invoice_analyzer.py`) over a
shallow embedding in Lean 4.

Conventions of the embedding:
* Numeric values are modelled as exact rationals (`ℚ`).  Python `float()`
  parsing is modelled on the plain decimal-numeral fragment that invoice
  tokens use (optional sign, digits, at most one decimal point); the
  scientific-notation / inf / nan corners of Python's grammar do not occur
  in invoice tokens and are outside the model.
* Python string helpers (`strip`, `split`, `replace`, `in`) are modelled
  character-list-wise, with ASCII whitespace for `strip`/`split`.
* Fallible operations return `Option`; "unknown" is `none`.
-/

namespace InvoiceAnalyzer

/-- Python `str.strip()` on a character list. -/
def trimChars (cs : List Char) : List Char :=
  ((cs.dropWhile Char.isWhitespace).reverse.dropWhile Char.isWhitespace).reverse

/-- Python `str.strip()`. -/
def strTrim (s : String) : String := String.mk (trimChars s.toList)

/-- Python `s.replace(",", "")`: drop every comma. -/
def stripCommas (s : String) : String := String.mk (s.toList.filter (fun c => c != ','))

/-- Value of a digit string, most significant first. -/
def natOfDigits (cs : List Char) : ℕ :=
  cs.foldl (fun a c => a * 10 + (c.toNat - 48)) 0

/-- Decimal-numeral parser standing for Python `float()` on the decimal
fragment: digits with at most one decimal point and at least one digit
(`"1."` and `".5"` parse, `"."` and `""` do not). -/
def parseDecCore (cs : List Char) : Option ℚ :=
  let intPart := cs.takeWhile Char.isDigit
  let rest := cs.dropWhile Char.isDigit
  match rest with
  | [] => if intPart.isEmpty then none else some (mkRat (natOfDigits intPart) 1)
  | '.' :: frac =>
      if frac.all Char.isDigit && !(intPart.isEmpty && frac.isEmpty) then
        some (mkRat (natOfDigits intPart * 10 ^ frac.length + natOfDigits frac)
                    (10 ^ frac.length))
      else none
  | _ => none

/-- Signed decimal numeral: optional leading `+`/`-`. -/
def parseDecimal (s : String) : Option ℚ :=
  match s.toList with
  | '+' :: rest => parseDecCore rest
  | '-' :: rest => (parseDecCore rest).map Rat.neg
  | cs => parseDecCore cs

/-- `safe_float` (Invoice_analyzer.py lines 8-23): `None` passes through,
otherwise strip surrounding whitespace, drop thousands-separator commas,
parse; `none` when the cleaned string is empty or fails to parse.  Total:
never raises. -/
def safe_float (x : Option String) : Option ℚ :=
  match x with
  | none => none
  | some v =>
    let s := stripCommas (strTrim v)
    if s = "" then none else parseDecimal s

/-- The cleaned form of an input to `safe_float` (strip then de-comma);
`none` cleans to the empty string. -/
def cleanedOf (x : Option String) : String :=
  match x with
  | none => ""
  | some v => stripCommas (strTrim v)

/-- Placeholder / blank markers for the tax-amount cell (line 44). -/
def missing_like : List String := ["", "***", "＊＊＊", "--", "-", "—", "―", "*"]

/-- Keywords in the tax-rate text denoting a zero-rate condition (line 46). -/
def zero_rate_keywords : List String := ["免税", "不征", "零税率", "0%"]

/-- Does `hay` start with `needle`? -/
def startsWithChars : List Char → List Char → Bool
  | [], _ => true
  | _ :: _, [] => false
  | n :: ns, h :: hs => n == h && startsWithChars ns hs

/-- Substring containment on character lists (Python `sub in s`). -/
def containsChars (hay needle : List Char) : Bool :=
  match hay with
  | [] => needle.isEmpty
  | _ :: t => startsWithChars needle hay || containsChars t needle

/-- Python `sub in s` on strings. -/
def strContains (s sub : String) : Bool := containsChars s.toList sub.toList

/-- `parse_tax_amount` (lines 26-53): an explicitly numeric token wins;
a placeholder token resolves to `0` only when the rate text contains a
zero-rate keyword; everything else is unknown. -/
def parse_tax_amount (token tax_rate : Option String) : Option ℚ :=
  let token_str := strTrim (token.getD "")
  let rate_str := strTrim (tax_rate.getD "")
  match safe_float (some token_str) with
  | some v => some v
  | none =>
    if token_str ∈ missing_like then
      if zero_rate_keywords.any (fun kw => strContains rate_str kw) then some 0
      else none
    else none

/-- Core of the regex `\*([^*]+)\*(.+)` anchored at the start: a star, a
non-empty run of non-star characters, a star, a non-empty remainder. -/
def starSplit (cs : List Char) : Option (List Char × List Char) :=
  match cs with
  | c :: rest =>
    if c = '*' then
      let cat := rest.takeWhile (fun x => x != '*')
      let rest2 := rest.dropWhile (fun x => x != '*')
      if rest2.headD ' ' = '*' then
        let item := rest2.tail
        if cat.isEmpty || item.isEmpty then none else some (cat, item)
      else none
    else none
  | [] => none

/-- `split_category_item` (lines 56-63): strip the name, split on the
`*category*item` shape, trimming both parts; otherwise the sentinel
"未分类" with the stripped name. -/
def split_category_item (name : String) : String × String :=
  let n := strTrim name
  match starSplit n.toList with
  | some (cat, item) => (strTrim (String.mk cat), strTrim (String.mk item))
  | none => ("未分类", n)

/-- Kernel-evaluable rational addition (used by the embedding where the
source adds amounts); proved equal to `+` on `ℚ` below. -/
def ratAdd (a b : ℚ) : ℚ := mkRat (a.num * b.den + b.num * a.den) (a.den * b.den)

theorem ratAdd_eq (a b : ℚ) : ratAdd a b = a + b := by
  have ha : (a.den : ℚ) ≠ 0 := by exact_mod_cast a.den_nz
  have hb : (b.den : ℚ) ≠ 0 := by exact_mod_cast b.den_nz
  rw [ratAdd, Rat.mkRat_eq_div]
  conv_rhs => rw [← Rat.num_div_den a, ← Rat.num_div_den b]
  push_cast
  field_simp

/-- Python `str.split()`: split on runs of whitespace, no empty tokens. -/
def splitWsAux : List Char → List Char → List String
  | [], acc => if acc.isEmpty then [] else [String.mk acc.reverse]
  | c :: cs, acc =>
    if c.isWhitespace then
      if acc.isEmpty then splitWsAux cs []
      else String.mk acc.reverse :: splitWsAux cs []
    else splitWsAux cs (c :: acc)

def splitWs (s : String) : List String := splitWsAux s.toList []

/-- One parsed purchase line (the dict built at lines 191-204, keeping the
fields the claims are about). -/
structure LineRecord where
  fileName : String
  page : ℕ
  category : String
  item : String
  unit : Option String
  qty : Option ℚ
  price : Option ℚ
  amount : Option ℚ
  tax_rate : String
  tax_amount : Option ℚ
  gross : Option ℚ
  raw_name : String
deriving DecidableEq

/-- Numeric-token indices of the middle region
(`[i for i, t in enumerate(middle_tokens) if safe_float(t) is not None]`). -/
def numIndices (middle_tokens : List String) : List ℕ :=
  (List.range middle_tokens.length).filter
    (fun i => (safe_float (some (middle_tokens.getD i ""))).isSome)

/-- Middle-region resolution of unit / quantity / unit price before the
first-token fallback (lines 156-174).  Python's
`unit_idx = idx_qty - 1; if unit_idx >= 0` becomes the `1 ≤ idx_qty`
guard. -/
def middleBase (middle_tokens : List String) :
    Option String × Option ℚ × Option ℚ :=
  let ni := numIndices middle_tokens
  if 2 ≤ ni.length then
    let idx_price := ni.reverse.getD 0 0
    let idx_qty := ni.reverse.getD 1 0
    let price := safe_float (some (middle_tokens.getD idx_price ""))
    let qty := safe_float (some (middle_tokens.getD idx_qty ""))
    let unit := if 1 ≤ idx_qty then some (middle_tokens.getD (idx_qty - 1) "")
                else none
    (unit, qty, price)
  else if ni.length = 1 then
    let idx_qty := ni.getD 0 0
    let qty := safe_float (some (middle_tokens.getD idx_qty ""))
    let unit := if 1 ≤ idx_qty then some (middle_tokens.getD (idx_qty - 1) "")
                else none
    (unit, qty, none)
  else (none, none, none)

/-- Middle-region resolution including the fallback of lines 176-178:
`if unit is None and middle_tokens: unit = middle_tokens[0]`. -/
def parseMiddle (middle_tokens : List String) :
    Option String × Option ℚ × Option ℚ :=
  let b := middleBase middle_tokens
  if b.1.isNone && !middle_tokens.isEmpty then
    (some (middle_tokens.headD ""), b.2.1, b.2.2)
  else b

/-- The gross-amount ("含税价") computation of lines 180-187:
net + tax when both known, net alone when only net known, unknown when
net unknown. -/
def grossOf (amount tax_amount : Option ℚ) : Option ℚ :=
  match amount, tax_amount with
  | some a, some t => some (ratAdd a t)
  | some a, none => some a
  | none, _ => none

/-- Line Field Extractor (lines 123-206, for one raw line of one page):
strip the line, require the `*category*item` shape and at least 4
whitespace tokens, then take tax amount / tax rate / net amount from the
last three tokens, resolve the middle region, and compute the gross
amount. -/
def parseLine (fileName : String) (page : ℕ) (raw_line : String) :
    Option LineRecord :=
  let line := strTrim raw_line
  if line = "" then none
  else if (starSplit line.toList).isNone then none
  else
    let tokens := splitWs line
    if tokens.length < 4 then none
    else
      let name_token := tokens.headD ""
      let rev := tokens.reverse
      let tax_amount_token := rev.getD 0 ""
      let tax_rate_token := rev.getD 1 ""
      let amount_token := rev.getD 2 ""
      let middle_tokens := ((tokens.drop 1).dropLast.dropLast).dropLast
      let amount := safe_float (some amount_token)
      let tax_rate := tax_rate_token
      let tax_amount := parse_tax_amount (some tax_amount_token) (some tax_rate)
      let upr := parseMiddle middle_tokens
      let ci := split_category_item name_token
      some { fileName := fileName, page := page, category := ci.1,
             item := ci.2, unit := upr.1, qty := upr.2.1, price := upr.2.2,
             amount := amount, tax_rate := tax_rate,
             tax_amount := tax_amount,
             gross := grossOf amount tax_amount,
             raw_name := name_token }

/-! ### Invoice deduplication (button handler, lines 273-331)

A document's parse result, as the dedup loop sees it: the uploaded file
name, the four header fields pulled from the parsed rows (each header
field is broadcast identically onto every row, so the "first non-null
value of the column" is just the header field, `none` when the column is
absent), and whether any detail rows were parsed at all. -/
structure ParsedDoc where
  fileName : String
  invoice_no : Option String
  issue_date : Option String
  buyer_name : Option String
  seller_name : Option String
  hasRows : Bool
deriving DecidableEq

/-- Python truthiness of a header value: present and non-empty. -/
def truthy (o : Option String) : Bool :=
  match o with
  | none => false
  | some s => s != ""

/-- A deduplication key (lines 302-305): the 4-tuple of header fields, or
the distinguished `("FILE_ONLY", name)` key.  The Python tuples have
different lengths, so the two shapes can never be equal; the two
constructors model that. -/
inductive DedupKey where
  | header (invoice_no issue_date buyer seller : Option String)
  | fileOnly (name : String)
deriving DecidableEq

/-- The identity key of a parsed document (lines 302-305). -/
def keyOf (d : ParsedDoc) : DedupKey :=
  if truthy d.invoice_no || truthy d.issue_date ||
     truthy d.buyer_name || truthy d.seller_name then
    DedupKey.header d.invoice_no d.issue_date d.buyer_name d.seller_name
  else
    DedupKey.fileOnly d.fileName

/-- The batch loop (lines 282-321): empty parses are skipped with a
warning, documents whose key was already seen are skipped with a warning,
everything else is accepted and its key recorded.  Total: no exceptions. -/
def dedupGo (seen : List DedupKey) : List ParsedDoc → List ParsedDoc
  | [] => []
  | d :: ds =>
    if d.hasRows = false then dedupGo seen ds
    else if keyOf d ∈ seen then dedupGo seen ds
    else d :: dedupGo (keyOf d :: seen) ds

/-- One whole batch, starting from an empty seen-set. -/
def dedupBatch (docs : List ParsedDoc) : List ParsedDoc := dedupGo [] docs

/-- The seen-set after processing a prefix of the batch. -/
def seenAfter (seen : List DedupKey) : List ParsedDoc → List DedupKey
  | [] => seen
  | d :: ds =>
    if d.hasRows = false then seenAfter seen ds
    else if keyOf d ∈ seen then seenAfter seen ds
    else seenAfter (keyOf d :: seen) ds

/-! ### Aggregation (display section, lines 337-501)

One record of the accepted batch as the aggregation sees it: its category,
source file name, short issue date (`none` when the document had no date;
present dates are non-empty), and its contribution to the chosen
gross-amount column (pandas sums skip missing values, so an unknown gross
contributes `0`, exactly as it does in every sum the code takes). -/
structure AggRec where
  category : String
  fileName : String
  issue_date : Option String
  amt : ℚ
deriving DecidableEq

/-- Kernel-evaluable sum of rational contributions; equal to `List.sum`. -/
def amtSum (l : List ℚ) : ℚ := l.foldr ratAdd (mkRat 0 1)

theorem amtSum_eq (l : List ℚ) : amtSum l = l.sum := by
  induction l with
  | nil => rfl
  | cons a t ih => simp [amtSum, List.foldr, ratAdd_eq] at ih ⊢; simp [ih]

/-- Total of the chosen amount column over some records
(`df[amount_col].sum()`). -/
def sumAmt (recs : List AggRec) : ℚ := amtSum (recs.map AggRec.amt)

/-- Per-category total (`groupby("类别")[amount_col].sum()`). -/
def catTotal (recs : List AggRec) (c : String) : ℚ :=
  sumAmt (recs.filter (fun r => r.category == c))

/-- The distinct categories of the batch, i.e. the rows of the pivot and
of the plain rollup (ordering does not affect any sum). -/
def cats (recs : List AggRec) : List String :=
  (recs.map AggRec.category).dedup

/-- Plain per-category rollup (the `summary` tables; sorting by amount
only permutes rows and is not modelled). -/
def rollup (recs : List AggRec) : List (String × ℚ) :=
  (cats recs).map (fun c => (c, catTotal recs c))

/-- Sum of the rollup's amount column. -/
def rollupColumnSum (recs : List AggRec) : ℚ :=
  amtSum ((rollup recs).map Prod.snd)

/-- The secondary dimension of a record: the short issue date when the
batch has any date (missing dates show as `""`), otherwise the file name
(lines 370-406). -/
def batchDim (recs : List AggRec) : AggRec → String :=
  if recs.any (fun r => r.issue_date.isSome) then
    fun r => r.issue_date.getD ""
  else
    fun r => r.fileName

/-- The distinct non-empty dimension values, i.e. the pivot columns kept
by the `reindex(columns=date_values)` step (`sorted(d for d in ... if d)`;
sorting only permutes columns and is not modelled). -/
def dimValues (recs : List AggRec) (dimOf : AggRec → String) : List String :=
  ((recs.map dimOf).filter (fun v => v != "")).dedup

/-- One pivot cell: the summed amount for a (category, dimension) pair
(`pivot_table(values=amount_col, index="类别", columns=dim_col,
aggfunc="sum", fill_value=0)`). -/
def cellSum (recs : List AggRec) (dimOf : AggRec → String) (c dv : String) : ℚ :=
  sumAmt (recs.filter (fun r => r.category == c && dimOf r == dv))

/-- The `合计` column entry of one pivot row (`pivot_sum.sum(axis=1)`,
after the reindex to the non-empty dimension values). -/
def rowTotal (recs : List AggRec) (dimOf : AggRec → String) (c : String) : ℚ :=
  amtSum ((dimValues recs dimOf).map (fun dv => cellSum recs dimOf c dv))

/-- The bottom-right cell of the pivot with totals: the `合计` row's
`合计` entry (`pivot_sum.sum()` summed over the `合计` column). -/
def grandTotal (recs : List AggRec) (dimOf : AggRec → String) : ℚ :=
  amtSum ((cats recs).map (fun c => rowTotal recs dimOf c))

/-- The full pivot rows (category, cells over the kept dimension values,
row total). -/
def pivotRows (recs : List AggRec) (dimOf : AggRec → String) :
    List (String × List ℚ × ℚ) :=
  (cats recs).map (fun c =>
    (c, (dimValues recs dimOf).map (fun dv => cellSum recs dimOf c dv),
     rowTotal recs dimOf c))

/-- The appended `合计` row: per-column totals and the grand total. -/
def totalsRow (recs : List AggRec) (dimOf : AggRec → String) : List ℚ × ℚ :=
  ((dimValues recs dimOf).map (fun dv =>
      amtSum ((cats recs).map (fun c => cellSum recs dimOf c dv))),
   grandTotal recs dimOf)

/-- What the multi-file display branch produces (lines 369-448): either
the degenerate single-date rollup (no pivot, no total row/column), or the
category × dimension pivot with the appended totals. -/
inductive AggView where
  | singleDate (v : String) (table : List (String × ℚ))
  | pivot (rows : List (String × List ℚ × ℚ)) (totals : List ℚ × ℚ)
deriving DecidableEq

/-- The multi-file cross-tabulation dispatch (lines 369-448): when some
record has a date and exactly one distinct non-empty short date exists,
the degenerate per-category rollup over the whole batch is shown;
otherwise the pivot with totals over the chosen dimension. -/
def crossTab (recs : List AggRec) : AggView :=
  if recs.any (fun r => r.issue_date.isSome) then
    let dimOf := fun (r : AggRec) => r.issue_date.getD ""
    match dimValues recs dimOf with
    | [v] => AggView.singleDate v (rollup recs)
    | _ => AggView.pivot (pivotRows recs dimOf) (totalsRow recs dimOf)
  else
    let dimOf := fun (r : AggRec) => r.fileName
    AggView.pivot (pivotRows recs dimOf) (totalsRow recs dimOf)

/-! ## Helper lemmas -/

theorem bne_eq_false_iff {c d : Char} : (c != d) = false ↔ c = d := by
  simp [bne]

/-- `takeWhile`/`dropWhile` with a non-star run in front of a star. -/
theorem takeWhile_nonstar (cat : List Char) (rest : List Char)
    (h : ∀ c ∈ cat, c ≠ '*') :
    (cat ++ '*' :: rest).takeWhile (fun c => c != '*') = cat ∧
    (cat ++ '*' :: rest).dropWhile (fun c => c != '*') = '*' :: rest := by
  induction cat with
  | nil => simp [List.takeWhile, List.dropWhile]
  | cons c cs ih =>
    have hc : (c != '*') = true := by
      simp [bne]; exact h c (List.mem_cons_self c cs)
    have ih' := ih (fun x hx => h x (List.mem_cons_of_mem c hx))
    simp [List.takeWhile, List.dropWhile, hc, ih'.1, ih'.2]

/-- The regex `\*([^*]+)\*(.+)` (anchored) characterized: a star, a
non-empty star-free category, a star, a non-empty item. -/
theorem starSplit_nil : starSplit [] = none := rfl

theorem starSplit_cons (c : Char) (rest : List Char) :
    starSplit (c :: rest) =
      if c = '*' then
        if (rest.dropWhile (fun x => x != '*')).headD ' ' = '*' then
          if (rest.takeWhile (fun x => x != '*')).isEmpty ||
             (rest.dropWhile (fun x => x != '*')).tail.isEmpty then none
          else some (rest.takeWhile (fun x => x != '*'),
                     (rest.dropWhile (fun x => x != '*')).tail)
        else none
      else none := rfl

theorem starSplit_eq_some_iff (cs cat item : List Char) :
    starSplit cs = some (cat, item) ↔
      cs = '*' :: cat ++ '*' :: item ∧ cat ≠ [] ∧
        (∀ c ∈ cat, c ≠ '*') ∧ item ≠ [] := by
  constructor
  · intro h
    cases cs with
    | nil => simp [starSplit_nil] at h
    | cons c rest =>
      rw [starSplit_cons] at h
      by_cases hc : c = '*'
      · subst hc
        rw [if_pos rfl] at h
        rcases hdrop : rest.dropWhile (fun x => x != '*') with _ | ⟨d, item'⟩
        · rw [hdrop] at h; simp at h
        · rw [hdrop] at h
          simp only [List.headD_cons, List.tail_cons] at h
          by_cases hd : d = '*'
          · subst hd
            rw [if_pos rfl] at h
            split at h
            · simp at h
            · rename_i hguard
              simp only [List.tail_cons, Option.some.injEq, Prod.mk.injEq] at h
              obtain ⟨hcat, hitem⟩ := h
              subst hcat; subst hitem
              simp only [List.tail_cons, Bool.or_eq_true, List.isEmpty_iff] at hguard
              push_neg at hguard
              refine ⟨?_, hguard.1, ?_, hguard.2⟩
              · have htd := List.takeWhile_append_dropWhile
                  (p := fun x => x != '*') (l := rest)
                rw [hdrop] at htd
                rw [List.cons_append, htd]
              · intro c hcmem
                have := List.mem_takeWhile_imp hcmem
                simpa [bne] using this
          · rw [if_neg hd] at h; simp at h
      · rw [if_neg hc] at h; simp at h
  · rintro ⟨hcs, hcat, hstar, hitem⟩
    subst hcs
    obtain ⟨htake, hdrop⟩ := takeWhile_nonstar cat item hstar
    rw [List.cons_append, starSplit_cons, if_pos rfl, htake, hdrop]
    simp [List.isEmpty_iff, hcat, hitem]

/-! ## Claims -/

/-- C6. For all tokens `t` (including nil), `safe_float t` is `none`
iff the whitespace-trimmed, comma-stripped form of `t` is empty or is not
a valid decimal numeral; it never raises (it is a total function).
`safe_float "1,234.50" = 1234.5`, `safe_float "" = none`,
`safe_float "--" = none`. -/
theorem claim_C6 :
    (∀ t : Option String,
      safe_float t = none ↔
        (cleanedOf t = "" ∨ parseDecimal (cleanedOf t) = none))
    ∧ safe_float (some "1,234.50") = some (mkRat 2469 2)
    ∧ safe_float (some "") = none
    ∧ safe_float (some "--") = none := by
  refine ⟨?_, by decide, by decide, by decide⟩
  intro t
  cases t with
  | none => simp [safe_float, cleanedOf]
  | some v =>
    simp only [safe_float, cleanedOf]
    by_cases h : stripCommas (strTrim v) = ""
    · simp [h]
    · simp [h]

/-- C1. The tax resolver: a token that parses as a number is returned
as parsed; otherwise a placeholder/blank token resolves to `0` exactly
when the rate text contains a zero-rate keyword; every other case is
unknown.  `resolve_tax("32.40","9%") = 32.4`,
`resolve_tax("***","免税") = 0.0`, `resolve_tax("***","9%") = none`,
`resolve_tax("","") = none`. -/
theorem claim_C1 :
    (∀ token rate v, safe_float (some (strTrim token)) = some v →
      parse_tax_amount (some token) (some rate) = some v)
    ∧ (∀ token rate, safe_float (some (strTrim token)) = none →
      strTrim token ∈ missing_like →
      zero_rate_keywords.any (fun kw => strContains (strTrim rate) kw) = true →
      parse_tax_amount (some token) (some rate) = some 0)
    ∧ (∀ token rate, safe_float (some (strTrim token)) = none →
      ¬(strTrim token ∈ missing_like ∧
        zero_rate_keywords.any (fun kw => strContains (strTrim rate) kw) = true) →
      parse_tax_amount (some token) (some rate) = none)
    ∧ parse_tax_amount (some "32.40") (some "9%") = some (mkRat 324 10)
    ∧ parse_tax_amount (some "***") (some "免税") = some 0
    ∧ parse_tax_amount (some "***") (some "9%") = none
    ∧ parse_tax_amount (some "") (some "") = none := by
  refine ⟨?_, ?_, ?_, by decide, by decide, by decide, by decide⟩
  · intro token rate v h
    simp only [parse_tax_amount, Option.getD]
    rw [h]
  · intro token rate h hmem hkw
    simp only [parse_tax_amount, Option.getD]
    rw [h]
    simp [hmem, hkw]
  · intro token rate h hnot
    simp only [parse_tax_amount, Option.getD]
    rw [h]
    by_cases hmem : strTrim token ∈ missing_like
    · have hkw : ¬ zero_rate_keywords.any
          (fun kw => strContains (strTrim rate) kw) = true := by
        intro hk; exact hnot ⟨hmem, hk⟩
      simp [hmem, hkw]
    · simp [hmem]

/-- C10. Because the zero-rate test is substring containment, every
placeholder token resolves to `0.0` whenever the (trimmed) rate text
contains `"0%"` anywhere — including non-zero rates such as `"10%"`. -/
theorem claim_C10 (t rate : String) (ht : t ∈ missing_like)
    (hc : strContains (strTrim rate) "0%" = true) :
    parse_tax_amount (some t) (some rate) = some 0 := by
  have hall : safe_float (some (strTrim t)) = none ∧ strTrim t ∈ missing_like := by
    fin_cases ht <;> exact ⟨by decide, by decide⟩
  simp only [parse_tax_amount, Option.getD]
  rw [hall.1]
  have hany : zero_rate_keywords.any
      (fun kw => strContains (strTrim rate) kw) = true := by
    simp only [zero_rate_keywords, List.any_cons, List.any_nil, Bool.or_eq_true]
    tauto
  simp [hall.2, hany]

/-- C10 witness: the placeholder `"***"` with the non-zero rate
`"10%"` is resolved to tax `0`. -/
theorem claim_C10_witness : parse_tax_amount (some "***") (some "10%") = some 0 :=
  claim_C10 "***" "10%" (by decide) (by decide)

/-- C8 counterexample. The splitter strips surrounding whitespace, so
on the non-matching input `" 芥兰苗"` it does *not* return the original
string unchanged. -/
theorem claim_C8_cex :
    split_category_item " 芥兰苗" ≠ ("未分类", " 芥兰苗") := by decide

/-- C8 (amended). The Category Splitter works on the
whitespace-trimmed name: when the trimmed name is star, non-empty
star-free category, star, non-empty item, it returns both parts trimmed;
otherwise it returns the sentinel `"未分类"` paired with the *trimmed*
name.  `split("*蔬菜*芥兰苗") = ("蔬菜","芥兰苗")`,
`split("芥兰苗") = ("未分类","芥兰苗")`. -/
theorem claim_C8 :
    (∀ name cat item, (strTrim name).toList = '*' :: cat ++ '*' :: item →
      cat ≠ [] → (∀ c ∈ cat, c ≠ '*') → item ≠ [] →
      split_category_item name =
        (strTrim (String.mk cat), strTrim (String.mk item)))
    ∧ (∀ name, starSplit (strTrim name).toList = none →
      split_category_item name = ("未分类", strTrim name))
    ∧ split_category_item "*蔬菜*芥兰苗" = ("蔬菜", "芥兰苗")
    ∧ split_category_item "芥兰苗" = ("未分类", "芥兰苗") := by
  refine ⟨?_, ?_, by decide, by decide⟩
  · intro name cat item hshape hcat hstar hitem
    have hsplit : starSplit (strTrim name).toList = some (cat, item) :=
      (starSplit_eq_some_iff _ _ _).mpr ⟨hshape, hcat, hstar, hitem⟩
    simp only [split_category_item]
    rw [hsplit]
  · intro name h
    simp only [split_category_item]
    rw [h]

theorem ne_nil_of_numIndices_ne_nil {mts : List String}
    (h : numIndices mts ≠ []) : mts ≠ [] := by
  intro hm
  exact h (by rw [hm]; rfl)

/-- The last three elements of a list of length at least 3, and how the
reversed list indexes them. -/
theorem threeFromEnd {α : Type} (l : List α) (h : 3 ≤ l.length) (d : α) :
    ∃ pre c b a, l = pre ++ [c, b, a] ∧ l.reverse.getD 0 d = a ∧
      l.reverse.getD 1 d = b ∧ l.reverse.getD 2 d = c := by
  rcases lr : l.reverse with _ | ⟨a, _ | ⟨b, _ | ⟨c, rest⟩⟩⟩
  · have h0 : l.reverse.length = 0 := by rw [lr]; rfl
    rw [List.length_reverse] at h0; omega
  · have h0 : l.reverse.length = 1 := by rw [lr]; rfl
    rw [List.length_reverse] at h0; omega
  · have h0 : l.reverse.length = 2 := by rw [lr]; rfl
    rw [List.length_reverse] at h0; omega
  · refine ⟨rest.reverse, c, b, a, ?_, ?_, ?_, ?_⟩
    · have hrr : l.reverse.reverse = (a :: b :: c :: rest).reverse :=
        congrArg List.reverse lr
      simpa using hrr
    · rfl
    · rfl
    · rfl

/-- C2 counterexample. For the middle region `["72"]` the claim says
the unit is unknown, but the extractor's first-token fallback assigns the
numeric token `"72"` itself as the unit. -/
theorem claim_C2_cex : parseMiddle ["72"] ≠ (none, some 72, none) := by decide

/-- C2 (amended). Middle-region resolution: with at least two numeric
tokens the last is the unit price and the second-to-last the quantity;
with exactly one it is the quantity; the token immediately preceding the
quantity is the unit, and when no unit was found that way but middle
tokens exist, the *first middle token* becomes the unit — so
`["斤","72","5"]` yields (斤, 72, 5), while `["72"]` yields quantity 72,
price unknown, and unit `"72"` (the fallback), not unknown. -/
theorem claim_C2 :
    parseMiddle ["斤", "72", "5"] = (some "斤", some 72, some 5)
    ∧ parseMiddle ["72"] = (some "72", some 72, none)
    ∧ (∀ mts, numIndices mts = [] → mts ≠ [] →
        parseMiddle mts = (some (mts.headD ""), none, none))
    ∧ (∀ mts i, numIndices mts = [i] → 1 ≤ i →
        parseMiddle mts =
          (some (mts.getD (i - 1) ""), safe_float (some (mts.getD i "")), none))
    ∧ (∀ mts, numIndices mts = [0] →
        parseMiddle mts =
          (some (mts.headD ""), safe_float (some (mts.getD 0 "")), none))
    ∧ (∀ mts pre i j, numIndices mts = pre ++ [i, j] → 1 ≤ i →
        parseMiddle mts =
          (some (mts.getD (i - 1) ""), safe_float (some (mts.getD i "")),
           safe_float (some (mts.getD j ""))))
    ∧ (∀ mts pre j, numIndices mts = pre ++ [0, j] →
        parseMiddle mts =
          (some (mts.headD ""), safe_float (some (mts.getD 0 "")),
           safe_float (some (mts.getD j "")))) := by
  refine ⟨by decide, by decide, ?_, ?_, ?_, ?_, ?_⟩
  · intro mts h hm
    have hb : middleBase mts = (none, none, none) := by
      simp only [middleBase]; rw [h]; norm_num
    cases mts with
    | nil => exact absurd rfl hm
    | cons a t => simp [parseMiddle, hb]
  · intro mts i h hi
    have hb : middleBase mts =
        (some (mts.getD (i - 1) ""), safe_float (some (mts.getD i "")), none) := by
      simp only [middleBase]; rw [h]
      norm_num [hi]
    simp [parseMiddle, hb]
  · intro mts h
    have hm : mts ≠ [] :=
      ne_nil_of_numIndices_ne_nil (by rw [h]; simp)
    have hb : middleBase mts =
        (none, safe_float (some (mts.getD 0 "")), none) := by
      simp only [middleBase]; rw [h]
      norm_num
    cases mts with
    | nil => exact absurd rfl hm
    | cons a t => simp [parseMiddle, hb]
  · intro mts pre i j h hi
    have hb : middleBase mts =
        (some (mts.getD (i - 1) ""), safe_float (some (mts.getD i "")),
         safe_float (some (mts.getD j ""))) := by
      simp only [middleBase]; rw [h]
      have hlen : 2 ≤ (pre ++ [i, j]).length := by simp
      rw [if_pos hlen]
      have hrev : (pre ++ [i, j]).reverse = j :: i :: pre.reverse := by simp
      simp [hrev, hi]
    simp [parseMiddle, hb]
  · intro mts pre j h
    have hm : mts ≠ [] :=
      ne_nil_of_numIndices_ne_nil (by rw [h]; simp)
    have hb : middleBase mts =
        (none, safe_float (some (mts.getD 0 "")),
         safe_float (some (mts.getD j ""))) := by
      simp only [middleBase]; rw [h]
      have hlen : 2 ≤ (pre ++ [0, j]).length := by simp
      rw [if_pos hlen]
      have hrev : (pre ++ [0, j]).reverse = j :: 0 :: pre.reverse := by simp
      simp [hrev]
    cases mts with
    | nil => exact absurd rfl hm
    | cons a t => simp [parseMiddle, hb]

/-- C3. For every emitted LineRecord, the gross amount is net + tax
when both are known, the net amount when only the net is known, and
unknown when the net is unknown, regardless of the tax value. -/
theorem claim_C3 (fn : String) (pg : ℕ) (line : String) (r : LineRecord)
    (h : parseLine fn pg line = some r) :
    (∀ a t, r.amount = some a → r.tax_amount = some t →
      r.gross = some (a + t))
    ∧ (∀ a, r.amount = some a → r.tax_amount = none → r.gross = some a)
    ∧ (r.amount = none → r.gross = none) := by
  simp only [parseLine] at h
  split at h
  · simp at h
  · split at h
    · simp at h
    · split at h
      · simp at h
      · have hr : r.gross = grossOf r.amount r.tax_amount := by
          rw [← Option.some_inj.mp h]
        refine ⟨?_, ?_, ?_⟩
        · intro a t ha ht
          rw [hr, ha, ht]
          simp [grossOf, ratAdd_eq]
        · intro a ha ht
          rw [hr, ha, ht]
          simp [grossOf]
        · intro ha
          rw [hr, ha]
          simp [grossOf]

/-- A concrete record emitted by the extractor, used to instantiate C3:
the tax token `"y"` is neither numeric nor a placeholder, so the tax is
unknown and the gross equals the net amount alone. -/
def exRec3 : LineRecord :=
  { fileName := "f", page := 1, category := "a", item := "b",
    unit := some "u", qty := some 2, price := some 3,
    amount := some (mkRat 9 2), tax_rate := "x", tax_amount := none,
    gross := some (mkRat 9 2), raw_name := "*a*b" }

/-- C3 witness: the gross-amount law applied to a concrete parsed
line with known net and unknown tax. -/
theorem claim_C3_witness : exRec3.gross = some (mkRat 9 2) :=
  (claim_C3 "f" 1 "*a*b u 2 3 4.5 x y" exRec3 (by decide)).2.1
    (mkRat 9 2) rfl rfl

/-- C7. The Line Field Extractor emits a record only if the stripped
line begins with the asterisk-category-asterisk-item shape and splits
into at least 4 whitespace tokens; when it does, the last token is the
tax-amount token, the second-to-last the raw tax-rate text, and the
third-to-last the net-amount token parsed by the numeric normalizer. -/
theorem claim_C7 (fn : String) (pg : ℕ) (line : String) (r : LineRecord)
    (h : parseLine fn pg line = some r) :
    (starSplit (strTrim line).toList).isSome = true
    ∧ 4 ≤ (splitWs (strTrim line)).length
    ∧ ∃ pre t3 t2 t1, splitWs (strTrim line) = pre ++ [t3, t2, t1]
        ∧ r.tax_rate = t2
        ∧ r.tax_amount = parse_tax_amount (some t1) (some t2)
        ∧ r.amount = safe_float (some t3) := by
  simp only [parseLine] at h
  split at h
  · simp at h
  · split at h
    · simp at h
    · rename_i hshape
      split at h
      · simp at h
      · rename_i hlen
        have hlen' : 4 ≤ (splitWs (strTrim line)).length := by omega
        refine ⟨?_, hlen', ?_⟩
        · rcases hss : starSplit (strTrim line).toList with _ | v
          · rw [hss] at hshape; simp at hshape
          · rfl
        · obtain ⟨pre, t3, t2, t1, hdec, h0, h1, h2⟩ :=
            threeFromEnd (splitWs (strTrim line)) (by omega) ""
          rw [h0, h1, h2] at h
          have hr := (Option.some_inj.mp h).symm
          refine ⟨pre, t3, t2, t1, hdec, ?_, ?_, ?_⟩ <;> rw [hr]

/-- A concrete record emitted by the extractor, used to instantiate C7. -/
def exRec7 : LineRecord :=
  { fileName := "g", page := 2, category := "蔬菜", item := "芥兰苗",
    unit := some "斤", qty := some 72, price := some 5,
    amount := some 360, tax_rate := "九%", tax_amount := none,
    gross := some 360, raw_name := "*蔬菜*芥兰苗" }

/-- C7 witness: the trailing-token layout holds on a concrete parsed
line. -/
theorem claim_C7_witness :
    (starSplit (strTrim "*蔬菜*芥兰苗 斤 72 5 360.00 九% xx").toList).isSome = true
    ∧ 4 ≤ (splitWs (strTrim "*蔬菜*芥兰苗 斤 72 5 360.00 九% xx")).length
    ∧ ∃ pre t3 t2 t1,
        splitWs (strTrim "*蔬菜*芥兰苗 斤 72 5 360.00 九% xx") = pre ++ [t3, t2, t1]
        ∧ exRec7.tax_rate = t2
        ∧ exRec7.tax_amount = parse_tax_amount (some t1) (some t2)
        ∧ exRec7.amount = safe_float (some t3) :=
  claim_C7 "g" 2 "*蔬菜*芥兰苗 斤 72 5 360.00 九% xx" exRec7 (by decide)

theorem dedupGo_append (seen : List DedupKey) (xs ys : List ParsedDoc) :
    dedupGo seen (xs ++ ys) = dedupGo seen xs ++ dedupGo (seenAfter seen xs) ys := by
  induction xs generalizing seen with
  | nil => rfl
  | cons d ds ih =>
    simp only [List.cons_append, dedupGo, seenAfter]
    by_cases h1 : d.hasRows = false
    · simp [h1, ih]
    · by_cases h2 : keyOf d ∈ seen
      · simp [h1, h2, ih]
      · simp [h1, h2, ih]

theorem mem_seenAfter (seen : List DedupKey) (xs : List ParsedDoc)
    (k : DedupKey) (hk : k ∈ seen) : k ∈ seenAfter seen xs := by
  induction xs generalizing seen with
  | nil => exact hk
  | cons d ds ih =>
    simp only [seenAfter]
    by_cases h1 : d.hasRows = false
    · simp [h1]; exact ih seen hk
    · by_cases h2 : keyOf d ∈ seen
      · simp [h1, h2]; exact ih seen hk
      · simp [h1, h2]; exact ih _ (List.mem_cons_of_mem _ hk)

theorem key_mem_seenAfter (seen : List DedupKey) (xs : List ParsedDoc)
    (d : ParsedDoc) (hd : d ∈ xs) (hr : d.hasRows = true) :
    keyOf d ∈ seenAfter seen xs := by
  induction xs generalizing seen with
  | nil => cases hd
  | cons x ds ih =>
    rcases List.mem_cons.mp hd with h | h
    · subst h
      simp only [seenAfter, hr]
      norm_num
      by_cases h2 : keyOf d ∈ seen
      · simp [h2]; exact mem_seenAfter seen ds _ h2
      · simp [h2]
        exact mem_seenAfter _ ds _ (List.mem_cons_self _ _)
    · simp only [seenAfter]
      by_cases h1 : x.hasRows = false
      · simp [h1]; exact ih seen h
      · by_cases h2 : keyOf x ∈ seen
        · simp [h1, h2]; exact ih seen h
        · simp [h1, h2]; exact ih _ h

theorem seenAfter_sub (seen : List DedupKey) (xs : List ParsedDoc)
    (k : DedupKey) (hk : k ∈ seenAfter seen xs) :
    k ∈ seen ∨ ∃ d ∈ xs, d.hasRows = true ∧ keyOf d = k := by
  induction xs generalizing seen with
  | nil => exact Or.inl hk
  | cons x ds ih =>
    simp only [seenAfter] at hk
    by_cases h1 : x.hasRows = false
    · rw [if_pos h1] at hk
      rcases ih seen hk with h | ⟨d, hm, hr', hke⟩
      · exact Or.inl h
      · exact Or.inr ⟨d, List.mem_cons_of_mem _ hm, hr', hke⟩
    · rw [if_neg h1] at hk
      by_cases h2 : keyOf x ∈ seen
      · rw [if_pos h2] at hk
        rcases ih seen hk with h | ⟨d, hm, hr', hke⟩
        · exact Or.inl h
        · exact Or.inr ⟨d, List.mem_cons_of_mem _ hm, hr', hke⟩
      · rw [if_neg h2] at hk
        rcases ih _ hk with h | ⟨d, hm, hr', hke⟩
        · rcases List.mem_cons.mp h with h | h
          · exact Or.inr ⟨x, List.mem_cons_self _ _,
              by simpa using h1, h.symm⟩
          · exact Or.inl h
        · exact Or.inr ⟨d, List.mem_cons_of_mem _ hm, hr', hke⟩

/-- C4. Each accepted document's identity is the 4-tuple of header
fields when any is non-empty, else a file-name key; a document whose
identity was already seen in the batch is skipped (no exception — the
loop is a total function), so of two documents with the same non-empty
identity only the first is kept, and a header-less document never
collides with a differently named file. -/
theorem claim_C4 :
    (∀ pre d post, d.hasRows = true →
      (∃ d0 ∈ pre, d0.hasRows = true ∧ keyOf d0 = keyOf d) →
      dedupBatch (pre ++ d :: post) = dedupBatch (pre ++ post))
    ∧ (∀ pre d post, d.hasRows = true →
      (∀ d0 ∈ pre, d0.hasRows = true → keyOf d0 ≠ keyOf d) →
      d ∈ dedupBatch (pre ++ d :: post))
    ∧ (∀ d : ParsedDoc, (truthy d.invoice_no || truthy d.issue_date ||
        truthy d.buyer_name || truthy d.seller_name) = true →
      keyOf d = DedupKey.header d.invoice_no d.issue_date d.buyer_name
        d.seller_name)
    ∧ (∀ d : ParsedDoc, (truthy d.invoice_no || truthy d.issue_date ||
        truthy d.buyer_name || truthy d.seller_name) = false →
      keyOf d = DedupKey.fileOnly d.fileName)
    ∧ (∀ d e : ParsedDoc, (truthy d.invoice_no || truthy d.issue_date ||
        truthy d.buyer_name || truthy d.seller_name) = false →
      d.fileName ≠ e.fileName → keyOf d ≠ keyOf e) := by
  refine ⟨?_, ?_, ?_, ?_, ?_⟩
  · rintro pre d post hd ⟨d0, hd0mem, hd0rows, hd0key⟩
    rw [dedupBatch, dedupBatch, dedupGo_append, dedupGo_append]
    have hkmem : keyOf d ∈ seenAfter [] pre :=
      hd0key ▸ key_mem_seenAfter [] pre d0 hd0mem hd0rows
    have hskip : dedupGo (seenAfter [] pre) (d :: post) =
        dedupGo (seenAfter [] pre) post := by
      simp [dedupGo, hd, hkmem]
    rw [hskip]
  · intro pre d post hd hall
    rw [dedupBatch, dedupGo_append]
    have hnot : keyOf d ∉ seenAfter [] pre := by
      intro hk
      rcases seenAfter_sub [] pre _ hk with h | ⟨d0, hm, hr', he⟩
      · simp at h
      · exact hall d0 hm hr' he
    have hcons : dedupGo (seenAfter [] pre) (d :: post) =
        d :: dedupGo (keyOf d :: seenAfter [] pre) post := by
      simp [dedupGo, hd, hnot]
    rw [hcons]
    exact List.mem_append_right _ (List.mem_cons_self _ _)
  · intro d h; simp [keyOf, h]
  · intro d h; simp [keyOf, h]
  · intro d e h hne hkeq
    have hd : keyOf d = DedupKey.fileOnly d.fileName := by simp [keyOf, h]
    by_cases ht : (truthy e.invoice_no || truthy e.issue_date ||
        truthy e.buyer_name || truthy e.seller_name) = true
    · have he : keyOf e = DedupKey.header e.invoice_no e.issue_date
          e.buyer_name e.seller_name := by simp [keyOf, ht]
      rw [hd, he] at hkeq
      exact DedupKey.noConfusion hkeq
    · have he : keyOf e = DedupKey.fileOnly e.fileName := by
        simp only [keyOf]
        rw [if_neg ht]
      rw [hd, he] at hkeq
      exact hne (DedupKey.fileOnly.inj hkeq)

/-- A document with a header (identity by the 4-tuple). -/
def docA : ParsedDoc := ⟨"a.pdf", some "123", none, none, none, true⟩

/-- A differently named document with the same header identity. -/
def docB : ParsedDoc := ⟨"b.pdf", some "123", none, none, none, true⟩

/-- C4 witness: the second of two documents with the same non-empty
identity tuple is dropped, even under different file names. -/
theorem claim_C4_witness : dedupBatch [docA, docB] = [docA] := by
  have h := claim_C4.1 [docA] docB []
    (by decide) ⟨docA, by simp, by decide, by decide⟩
  exact h.trans (by decide)

theorem sum_map_add {α : Type} (l : List α) (g h : α → ℚ) :
    (l.map (fun a => g a + h a)).sum = (l.map g).sum + (l.map h).sum := by
  induction l with
  | nil => simp
  | cons a t ih => simp [ih]; ring

theorem sum_if_not_mem (keys : List String) (x : String) (hx : x ∉ keys)
    (v : ℚ) : (keys.map (fun k => if x == k then v else 0)).sum = 0 := by
  induction keys with
  | nil => rfl
  | cons k ks ih =>
    have hxk : x ≠ k := fun he => hx (he ▸ List.mem_cons_self _ _)
    simp only [List.map_cons, List.sum_cons]
    rw [if_neg (by simpa using hxk)]
    rw [ih (fun hm => hx (List.mem_cons_of_mem _ hm))]
    ring

theorem sum_if_mem (keys : List String) (hnd : keys.Nodup) (x : String)
    (hx : x ∈ keys) (v : ℚ) :
    (keys.map (fun k => if x == k then v else 0)).sum = v := by
  induction keys with
  | nil => cases hx
  | cons k ks ih =>
    simp only [List.map_cons, List.sum_cons]
    have hnd' := List.nodup_cons.mp hnd
    rcases List.mem_cons.mp hx with h | h
    · subst h
      rw [if_pos (by simp)]
      rw [sum_if_not_mem ks x hnd'.1 v]
      ring
    · have hxk : x ≠ k := fun he => hnd'.1 (he ▸ h)
      rw [if_neg (by simpa using hxk)]
      rw [ih hnd'.2 h]
      ring

theorem sum_fiber (keys : List String) (hnd : keys.Nodup) (f : AggRec → String)
    (recs : List AggRec) (hcov : ∀ r ∈ recs, f r ∈ keys) :
    (keys.map (fun k =>
        ((recs.filter (fun r => f r == k)).map AggRec.amt).sum)).sum
      = (recs.map AggRec.amt).sum := by
  induction recs with
  | nil => simp
  | cons r rs ih =>
    have hcov' : ∀ x ∈ rs, f x ∈ keys :=
      fun x hx => hcov x (List.mem_cons_of_mem _ hx)
    have hfr : f r ∈ keys := hcov r (List.mem_cons_self _ _)
    have hterm : ∀ k : String,
        (((r :: rs).filter (fun x => f x == k)).map AggRec.amt).sum
          = (if f r == k then r.amt else 0)
            + ((rs.filter (fun x => f x == k)).map AggRec.amt).sum := by
      intro k
      by_cases h : (f r == k) = true
      · simp [List.filter_cons, h]
      · simp [List.filter_cons, h]
    calc (keys.map (fun k =>
            (((r :: rs).filter (fun x => f x == k)).map AggRec.amt).sum)).sum
        = (keys.map (fun k => (if f r == k then r.amt else 0)
            + ((rs.filter (fun x => f x == k)).map AggRec.amt).sum)).sum := by
          simp only [hterm]
      _ = (keys.map (fun k => if f r == k then r.amt else 0)).sum
            + (keys.map (fun k =>
               ((rs.filter (fun x => f x == k)).map AggRec.amt).sum)).sum := by
          rw [sum_map_add]
      _ = r.amt + (rs.map AggRec.amt).sum := by
          rw [sum_if_mem keys hnd (f r) hfr r.amt, ih hcov']
      _ = ((r :: rs).map AggRec.amt).sum := by simp

theorem rollupColumnSum_eq (recs : List AggRec) :
    rollupColumnSum recs = sumAmt recs := by
  have hcov : ∀ r ∈ recs, r.category ∈ cats recs := fun r hr =>
    List.mem_dedup.mpr (List.mem_map_of_mem _ hr)
  have h := sum_fiber (cats recs) (List.nodup_dedup _) AggRec.category recs hcov
  simp only [rollupColumnSum, rollup, sumAmt, catTotal, amtSum_eq,
    List.map_map, Function.comp] at h ⊢
  exact h.trans rfl

/-- A batch with two dated documents and one dateless document. -/
def exC5 : List AggRec :=
  [⟨"a", "f1", some "2024-01-01", 1⟩, ⟨"a", "f2", some "2024-01-02", 1⟩,
   ⟨"b", "f3", none, 2⟩]

/-- A dateless batch whose two documents share one file name. -/
def exC9 : List AggRec := [⟨"a", "x.pdf", none, 1⟩, ⟨"b", "x.pdf", none, 2⟩]

/-- C5 counterexample. A batch with two distinct dates plus a record
from a document with no date: the dateless record's dimension value `""`
is dropped from the pivot columns by the reindex, so the pivot's
bottom-right grand total misses its amount while the plain rollup keeps
it. -/
theorem claim_C5_cex :
    (dimValues exC5 (batchDim exC5)).length = 2
    ∧ grandTotal exC5 (batchDim exC5) ≠ rollupColumnSum exC5 := by decide

/-- C5 (amended). When every record carries a non-empty secondary
dimension value, the pivot's bottom-right grand total equals the sum of
the plain per-category rollup's amount column; that column sum always
equals the batch total of the amount column. -/
theorem claim_C5 :
    (∀ recs (dimOf : AggRec → String), (∀ r ∈ recs, dimOf r ≠ "") →
      grandTotal recs dimOf = rollupColumnSum recs)
    ∧ (∀ recs, rollupColumnSum recs = sumAmt recs) := by
  refine ⟨?_, rollupColumnSum_eq⟩
  intro recs dimOf hne
  have hrow : ∀ c ∈ cats recs,
      rowTotal recs dimOf c = catTotal recs c := by
    intro c _
    have hfilter : ∀ dv : String,
        recs.filter (fun r => r.category == c && dimOf r == dv)
          = (recs.filter (fun r => r.category == c)).filter
              (fun r => dimOf r == dv) := by
      intro dv
      rw [List.filter_filter]
      apply List.filter_congr
      intro a _
      exact Bool.and_comm _ _
    have hcov : ∀ r ∈ recs.filter (fun r => r.category == c),
        dimOf r ∈ dimValues recs dimOf := by
      intro r hr
      have hrm : r ∈ recs := List.mem_of_mem_filter hr
      refine List.mem_dedup.mpr (List.mem_filter.mpr ⟨List.mem_map_of_mem _ hrm, ?_⟩)
      simpa using hne r hrm
    have h := sum_fiber (dimValues recs dimOf)
      (List.nodup_dedup _) dimOf (recs.filter (fun r => r.category == c)) hcov
    simp only [rowTotal, cellSum, catTotal, sumAmt, amtSum_eq]
    calc ((dimValues recs dimOf).map (fun dv =>
            ((recs.filter (fun r => r.category == c && dimOf r == dv)).map
              AggRec.amt).sum)).sum
        = ((dimValues recs dimOf).map (fun dv =>
            (((recs.filter (fun r => r.category == c)).filter
              (fun r => dimOf r == dv)).map AggRec.amt).sum)).sum := by
          simp only [hfilter]
      _ = ((recs.filter (fun r => r.category == c)).map AggRec.amt).sum := h
  simp only [grandTotal, rollupColumnSum, rollup, amtSum_eq, List.map_map,
    Function.comp]
  exact congrArg List.sum (List.map_congr_left hrow)

/-- A batch where every record has a (non-empty) date: C5's hypothesis
holds. -/
def exC5w : List AggRec :=
  [⟨"a", "f1", some "2024-01-01", 1⟩, ⟨"b", "f2", some "2024-01-02", 2⟩]

/-- C5 witness: the pivot grand total matches the rollup column sum
on a concrete all-dated batch. -/
theorem claim_C5_witness :
    grandTotal exC5w (batchDim exC5w) = rollupColumnSum exC5w :=
  claim_C5.1 exC5w (batchDim exC5w) (by decide)

/-- C9 counterexample. A batch with no dates at all and a single
distinct file name: the secondary dimension (the file name) has exactly
one distinct value, yet the code still produces the pivot with total
row/column, not the degenerate rollup. -/
theorem claim_C9_cex :
    dimValues exC9 (batchDim exC9) = ["x.pdf"]
    ∧ crossTab exC9 ≠ AggView.singleDate "x.pdf"
        (rollup (exC9.filter (fun r => batchDim exC9 r == "x.pdf"))) := by
  decide

/-- C9 (amended). The degenerate branch exists only for the *date*
dimension: when some record has a date and exactly one distinct non-empty
short date occurs, the cross-tab is the plain per-category rollup over
the whole batch (no total row/column); and when every record carries that
date value, the whole-batch rollup coincides with the rollup restricted
to the records carrying it.  When no record has a date, the pivot with
totals is produced even for a single distinct file-name value. -/
theorem claim_C9 :
    (∀ (recs : List AggRec) (v : String),
      recs.any (fun r => r.issue_date.isSome) = true →
      dimValues recs (fun r => r.issue_date.getD "") = [v] →
      crossTab recs = AggView.singleDate v (rollup recs))
    ∧ (∀ (recs : List AggRec) (v : String),
      (∀ r ∈ recs, r.issue_date.getD "" = v) →
      recs.filter (fun r => r.issue_date.getD "" == v) = recs) := by
  constructor
  · intro recs v hany hdv
    simp only [crossTab]
    rw [if_pos hany, hdv]
  · intro recs v hall
    apply List.filter_eq_self.mpr
    intro r hr
    simpa using hall r hr

/-- A two-document batch sharing a single date. -/
def exC9w : List AggRec :=
  [⟨"a", "f1", some "2024-01-01", 1⟩, ⟨"b", "f2", some "2024-01-01", 2⟩]

/-- C9 witness: a concrete one-date batch degenerates to the plain
rollup. -/
theorem claim_C9_witness :
    crossTab exC9w = AggView.singleDate "2024-01-01" (rollup exC9w) :=
  claim_C9.1 exC9w "2024-01-01" (by decide) (by decide)

end InvoiceAnalyzer
